import Mathlib

/-!
Verification of the `UnorderedBufferSet` n-gram dictionary engine
(`src/unordered_buffer_set.cc`) against its natural-language specification.

The C++ core is embedded shallowly:
* byte buffers are `List Nat` (one `Nat` per byte);
* `PooledString` views compare by content, so every view is represented
  directly by the byte list it denotes;
* `std::unordered_set<PooledString>` is represented by a duplicate-free
  `List Bytes` with insert-if-absent (`setInsert`) and `count`-based lookup;
* the scanning loops of the constructor and of `findAllMatches` are
  transcribed as structural recursions (`buildSetAux`, `findLoop`, the
  latter with an explicit fuel that the wrapper instantiates with a bound
  large enough for the whole scan).
-/

namespace UBS

/-- Byte buffers: one `Nat` per byte. -/
abbrev Bytes := List Nat

/-- Byte-list literal from a Lean string (each char's code point; all the
corpora and queries in the examples are ASCII, so this is their byte form). -/
def bs (s : String) : Bytes := s.toList.map Char.toNat

/-- `std::unordered_set::insert`: add `x` unless an equal element is present
(duplicates collapse).  The list order is the insertion order, which is
irrelevant for membership. -/
def setInsert (set : List Bytes) (x : Bytes) : List Bytes :=
  if x ∈ set then set else set ++ [x]

/-- Constructor scan (`UnorderedBufferSet::UnorderedBufferSet`, lines 92-104):
walk the corpus; at each byte 0x0A insert the segment accumulated since the
previous newline; after the walk insert the trailing segment only when it is
non-empty (`if (tokenStart < end)`). `cur` is the segment accumulated so far. -/
def buildSetAux (set : List Bytes) (cur : Bytes) : Bytes → List Bytes
  | [] => if cur.isEmpty then set else setInsert set cur
  | b :: rest =>
      if b = 10 then buildSetAux (setInsert set cur) [] rest
      else buildSetAux set (cur ++ [b]) rest

/-- The dictionary built from a corpus (`UnorderedBufferSet` constructor). -/
def buildSet (corpus : Bytes) : List Bytes := buildSetAux [] [] corpus

/-- `UnorderedBufferSet::contains` (lines 112-117): `set.count(str) != 0`. -/
def contains (dict : List Bytes) (q : Bytes) : Bool :=
  decide (dict.count q ≠ 0)

/-- The byte sub-buffer `q[a, b)` (a `PooledString` view of `q`). -/
def substr (q : Bytes) (a b : Nat) : Bytes := (q.drop a).take (b - a)

/-- Index of the first space byte 0x20 of `l`, or `l.length` when there is
none (the list-level content of `memchr(_, ' ', _)`). -/
def findSpace : Bytes → Nat
  | [] => 0
  | b :: rest => if b = 32 then 0 else findSpace rest + 1

/-- `memchr(lastP, ' ', end - lastP)` on the embedded query: the position of
the first space at or after `a`, or `q.length` when there is none
(the code replaces `NULL` by `s + len`, line 130). -/
def memchrSpace (q : Bytes) (a : Nat) : Nat := a + findSpace (q.drop a)

/-- The scanning loop of `UnorderedBufferSet::findAllMatches`
(lines 128-148), transcribed with positions instead of pointers:
`lastP` is the resume position for `memchr`, `tokenStarts` the pending-start
deque (front = oldest).  At each end position `p` every pending start is
tested oldest-first and hits are appended; then the front start is popped
when the deque holds exactly `maxN` entries, the loop stops if `p` is the
end of the query, and otherwise `p + 1` is pushed as the next start.
`fuel` only bounds the recursion; the wrapper passes enough for the whole
scan (`lastP` strictly increases and never exceeds `q.length`). -/
def findLoop (dict : List Bytes) (q : Bytes) (maxN : Nat) :
    Nat → Nat → List Nat → List Bytes
  | 0, _, _ => []
  | fuel + 1, lastP, tokenStarts =>
      let p := memchrSpace q lastP
      let hits := tokenStarts.filterMap (fun t =>
        if contains dict (substr q t p) then some (substr q t p) else none)
      let ts1 := if tokenStarts.length = maxN then tokenStarts.tail else tokenStarts
      if p = q.length then hits
      else hits ++ findLoop dict q maxN fuel (p + 1) (ts1 ++ [p + 1])

/-- `UnorderedBufferSet::findAllMatches` (lines 119-151): the loop starts
with the single pending start `0` and resume position `0`. -/
def findAllMatches (dict : List Bytes) (q : Bytes) (maxN : Nat) : List Bytes :=
  findLoop dict q maxN (q.length + 1) 0 [0]

/-- The JS-facing argument after conversion: `some b` for a Buffer or a
text value that converted to the bytes `b`, `none` when the UTF-8
conversion failed.  Per the wrappers' comment ("On failure, it's just an
empty String", lines 206, 239) failure yields the empty byte sequence. -/
def effectiveBytes : Option Bytes → Bytes
  | none => []
  | some b => b

/-- `UnorderedBufferSet::Contains` wrapper (lines 190-212). -/
def ContainsExt (dict : List Bytes) (arg : Option Bytes) : Bool :=
  contains dict (effectiveBytes arg)

/-- `UnorderedBufferSet::FindAllMatches` wrapper (lines 214-252):
`maxNgramSize == 0` is coerced to `1` (line 225) before the sweep. -/
def FindAllMatchesExt (dict : List Bytes) (arg : Option Bytes)
    (maxNgramSize : Nat) : List Bytes :=
  findAllMatches dict (effectiveBytes arg)
    (if maxNgramSize = 0 then 1 else maxNgramSize)

/-! ### Specification-side descriptions

The next definitions follow the spec's words (§4.1, §4.2), to be compared
with the transcribed code above. -/

/-- All newline-separated segments of a corpus, the possibly-empty trailing
one included (`splitSegs c` is never empty). -/
def splitSegs : Bytes → List Bytes
  | [] => [[]]
  | b :: rest =>
      if b = 10 then [] :: splitSegs rest
      else (b :: (splitSegs rest).headI) :: (splitSegs rest).tail

/-- Keep all segments except a final empty one. -/
def keptOf (l : List Bytes) : List Bytes :=
  if l.getLast? = some [] then l.dropLast else l

/-- The segments the spec says are inserted: every newline-separated
segment, except that the final segment is dropped when it is empty
(spec §4.1: "only the very last, post-final-newline segment is suppressed
if empty"). -/
def keptSegments (c : Bytes) : List Bytes := keptOf (splitSegs c)

/-- Positions of the space bytes of `q`, in increasing order. -/
def spacePositions (q : Bytes) : List Nat :=
  (List.range q.length).filter (fun i => decide (q.getD i 0 = 32))

/-- Number of end positions the sweep visits: one per space, plus the final
end-of-query position (also the number of space-delimited tokens of `q`). -/
def numEnds (q : Bytes) : Nat := (spacePositions q).length + 1

/-- The token start positions of `q`, oldest first: `0`, then the position
after each space. -/
def startsOf (q : Bytes) : List Nat := 0 :: (spacePositions q).map (· + 1)

/-- The end positions of `q` in the order the sweep visits them: each space
position, then `q.length`. -/
def endsOf (q : Bytes) : List Nat := spacePositions q ++ [q.length]

/-- The `i`-th token start of `q`. -/
def startAt (q : Bytes) (i : Nat) : Nat := (startsOf q).getD i 0

/-- The `i`-th end position of `q`. -/
def endAt (q : Bytes) (i : Nat) : Nat := (endsOf q).getD i 0

/-- The pending-start deque at the moment end position `i` is processed,
oldest first: the last `min maxN (i+1)` token starts among the first
`i+1` (spec §4.2 steps 2-4). -/
def pendingAt (q : Bytes) (maxN i : Nat) : List Nat :=
  ((startsOf q).take (i + 1)).drop (i + 1 - maxN)

/-- The (start, end) span pairs membership-tested by the sweep, in test
order: end positions left to right, and at each end every pending start
oldest first (spec §4.2 step 3). -/
def specTestedSpans (q : Bytes) (maxN : Nat) : List (Nat × Nat) :=
  (List.range (numEnds q)).flatMap (fun i =>
    (pendingAt q maxN i).map (fun t => (t, endAt q i)))

/-- The hits emitted while processing end position `i`, in test order. -/
def emitAt (dict : List Bytes) (q : Bytes) (maxN i : Nat) : List Bytes :=
  (pendingAt q maxN i).filterMap (fun t =>
    if contains dict (substr q t (endAt q i)) then
      some (substr q t (endAt q i)) else none)

/-- Spec-side description of the match list: the tested spans in test
order, filtered by dictionary membership (spec §4.2). -/
def specMatches (dict : List Bytes) (q : Bytes) (maxN : Nat) : List Bytes :=
  (specTestedSpans q maxN).filterMap (fun te =>
    if contains dict (substr q te.1 te.2) then
      some (substr q te.1 te.2) else none)

/-! ### State-passing view of the two query methods

The C++ methods receive the object (`this`) and only read `set` and `mem`;
the state-passing embedding makes the receiver they leave behind explicit. -/

/-- The wrapped object's fields: the owned corpus copy `mem` and the token
set (lines 58-60). -/
structure UBSState where
  mem : Bytes
  set : List Bytes
  deriving DecidableEq

/-- Construction (lines 85-105): copy the corpus into `mem` and build the
set from the copy. -/
def mkUBS (corpus : Bytes) : UBSState := ⟨corpus, buildSet corpus⟩

/-- `contains` as a method: result plus the receiver after the call.  The
body (lines 112-117) reads `set` and writes no field. -/
def containsM (st : UBSState) (q : Bytes) : Bool × UBSState :=
  (contains st.set q, st)

/-- `findAllMatches` as a method: result plus the receiver after the call.
The body (lines 119-151) reads `set` and writes no field. -/
def findAllMatchesM (st : UBSState) (q : Bytes) (maxN : Nat) :
    List Bytes × UBSState :=
  (findAllMatches st.set q maxN, st)

/-! ### Allocation bookkeeping for the corpus buffer -/

/-- How the corpus buffer is allocated. -/
inductive AllocMethod
  | newArray
  | mallocAlloc
  deriving DecidableEq

/-- How the corpus buffer is deallocated. -/
inductive FreeMethod
  | deleteArray
  | cFree
  deriving DecidableEq

/-- The deallocation that correctly matches each allocation:
`new[]` pairs with `delete[]`, `malloc` with `free`. -/
def matchingFree : AllocMethod → FreeMethod
  | .newArray => .deleteArray
  | .mallocAlloc => .cFree

/-- The constructor's allocation of `mem` (line 87): `new char[len]`. -/
def ctorAlloc : AllocMethod := .newArray

/-- The destructor's deallocation of `mem` (line 109): `free(this->mem)`. -/
def dtorFree : FreeMethod := .cFree

/-! ## Basic lemmas about the set and the dictionary construction -/

lemma mem_setInsert {set : List Bytes} {x t : Bytes} :
    t ∈ setInsert set x ↔ t ∈ set ∨ t = x := by
  unfold setInsert
  split
  · rename_i h
    constructor
    · exact Or.inl
    · rintro (ht | rfl)
      · exact ht
      · exact h
  · simp

lemma nodup_setInsert {set : List Bytes} {x : Bytes} (h : set.Nodup) :
    (setInsert set x).Nodup := by
  unfold setInsert
  split
  · exact h
  · rename_i hx
    rw [List.nodup_append]
    refine ⟨h, List.nodup_singleton x, ?_⟩
    intro b hb hbx
    rw [List.mem_singleton] at hbx
    exact hx (hbx ▸ hb)

lemma contains_iff {dict : List Bytes} {q : Bytes} :
    contains dict q = true ↔ q ∈ dict := by
  simp [contains, Ne, List.count_eq_zero]

lemma contains_eq_false {dict : List Bytes} {q : Bytes} (h : q ∉ dict) :
    contains dict q = false := by
  simp [contains, Ne, List.count_eq_zero, h]

lemma splitSegs_ne_nil (c : Bytes) : splitSegs c ≠ [] := by
  cases c with
  | nil => simp [splitSegs]
  | cons b rest =>
    unfold splitSegs
    split <;> simp

lemma headI_cons_tail {α : Type} [Inhabited α] {l : List α} (h : l ≠ []) :
    l.headI :: l.tail = l := by
  cases l with
  | nil => exact absurd rfl h
  | cons a t => rfl

lemma keptOf_cons {x : Bytes} {l : List Bytes} (h : l ≠ []) :
    keptOf (x :: l) = x :: keptOf l := by
  cases l with
  | nil => exact absurd rfl h
  | cons a t =>
    unfold keptOf
    rw [List.getLast?_cons_cons]
    split
    · rw [List.dropLast_cons₂]
    · rfl

lemma mem_buildSetAux (t : Bytes) :
    ∀ (rest : Bytes) (set : List Bytes) (cur : Bytes),
      t ∈ buildSetAux set cur rest ↔
        t ∈ set ∨
          t ∈ keptOf ((cur ++ (splitSegs rest).headI) :: (splitSegs rest).tail) := by
  intro rest
  induction rest with
  | nil =>
    intro set cur
    simp only [buildSetAux, splitSegs, List.headI, List.tail, List.append_nil]
    by_cases hc : cur = []
    · subst hc
      simp [keptOf]
    · rw [if_neg (by simpa using hc)]
      rw [mem_setInsert]
      unfold keptOf
      rw [if_neg (by simpa using hc)]
      simp
  | cons b r ih =>
    intro set cur
    obtain ⟨a, l, hsr⟩ : ∃ a l, splitSegs r = a :: l := by
      cases hr : splitSegs r with
      | nil => exact absurd hr (splitSegs_ne_nil r)
      | cons a l => exact ⟨a, l, rfl⟩
    by_cases hb : b = 10
    · subst hb
      have h1 : buildSetAux set cur (10 :: r) = buildSetAux (setInsert set cur) [] r := by
        simp [buildSetAux]
      have h2 : splitSegs (10 :: r) = [] :: splitSegs r := by
        simp [splitSegs]
      have hk : keptOf (cur :: a :: l) = cur :: keptOf (a :: l) :=
        keptOf_cons (by simp)
      rw [h1, ih, h2, hsr, mem_setInsert]
      simp only [List.headI_cons, List.tail_cons, List.nil_append, List.append_nil]
      rw [hk]
      simp only [List.mem_cons]
      tauto
    · have h1 : buildSetAux set cur (b :: r) = buildSetAux set (cur ++ [b]) r := by
        simp [buildSetAux, hb]
      have h2 : splitSegs (b :: r) =
          (b :: (splitSegs r).headI) :: (splitSegs r).tail := by
        simp [splitSegs, hb]
      rw [h1, ih, h2, hsr]
      simp

lemma mem_buildSet (c t : Bytes) : t ∈ buildSet c ↔ t ∈ keptSegments c := by
  unfold buildSet keptSegments
  rw [mem_buildSetAux]
  simp only [List.mem_nil_iff, List.nil_append, false_or]
  rw [headI_cons_tail (splitSegs_ne_nil c)]

lemma nodup_buildSetAux :
    ∀ (rest : Bytes) (set : List Bytes) (cur : Bytes),
      set.Nodup → (buildSetAux set cur rest).Nodup := by
  intro rest
  induction rest with
  | nil =>
    intro set cur h
    unfold buildSetAux
    split
    · exact h
    · exact nodup_setInsert h
  | cons b r ih =>
    intro set cur h
    unfold buildSetAux
    split
    · exact ih _ _ (nodup_setInsert h)
    · exact ih _ _ h

lemma nodup_buildSet (c : Bytes) : (buildSet c).Nodup :=
  nodup_buildSetAux c [] [] List.nodup_nil

/-! ## Claim theorems: dictionary construction and exact membership -/

/-- C1: dictionary construction splits the corpus on the byte 0x0A into one
set entry per segment, collapsing duplicates; an empty segment between two
newlines (or before a leading newline) is inserted, while the empty segment
after a final trailing newline is not; corpus "a\nb\n" yields {"a","b"} and
corpus "a\n\nb" yields {"a","","b"}. -/
theorem C1_corpus_split :
    (∀ c : Bytes, (buildSet c).Nodup) ∧
    (∀ c t : Bytes, t ∈ buildSet c ↔ t ∈ keptSegments c) ∧
    buildSet (bs "a\nb\n") = [bs "a", bs "b"] ∧
    buildSet (bs "a\n\nb") = [bs "a", bs "", bs "b"] :=
  ⟨nodup_buildSet, mem_buildSet, by decide, by decide⟩

/-- C1 witness: the general membership description evaluated on the corpus
"a\n\nb" and the empty entry. -/
theorem C1_corpus_split_witness :
    ([] : Bytes) ∈ buildSet (bs "a\n\nb") ↔ [] ∈ keptSegments (bs "a\n\nb") :=
  C1_corpus_split.2.1 (bs "a\n\nb") []

/-- C4: `contains` is a single exact-match membership test of the whole
query span, true iff the query's bytes equal byte-for-byte some entry of
the construction-time newline split (case-sensitive, no normalization). -/
theorem C4_contains_exact :
    (∀ (dict : List Bytes) (q : Bytes), contains dict q = true ↔ q ∈ dict) ∧
    (∀ c q : Bytes, contains (buildSet c) q = true ↔ q ∈ keptSegments c) ∧
    contains (buildSet (bs "Foo")) (bs "Foo") = true ∧
    contains (buildSet (bs "Foo")) (bs "foo") = false := by
  refine ⟨fun dict q => contains_iff, fun c q => ?_, by decide, by decide⟩
  rw [contains_iff]
  exact mem_buildSet c q

/-- C4 witness: the membership description evaluated on the corpus
"a\nb\n" and the query "b". -/
theorem C4_contains_exact_witness :
    contains (buildSet (bs "a\nb\n")) (bs "b") = true ↔
      bs "b" ∈ keptSegments (bs "a\nb\n") :=
  C4_contains_exact.2.1 (bs "a\nb\n") (bs "b")

/-! ## Lemmas about the space scan -/

lemma findSpace_le_length (l : Bytes) : findSpace l ≤ l.length := by
  induction l with
  | nil => simp [findSpace]
  | cons b r ih =>
    unfold findSpace
    split
    · simp
    · simpa using Nat.succ_le_succ ih

lemma findSpace_take_ne (l : Bytes) :
    ∀ m, m < findSpace l → l.getD m 0 ≠ 32 := by
  induction l with
  | nil =>
    intro m hm
    simp [findSpace] at hm
  | cons b r ih =>
    intro m hm
    unfold findSpace at hm
    by_cases hb : b = 32
    · rw [if_pos hb] at hm
      omega
    · rw [if_neg hb] at hm
      cases m with
      | zero => simpa using hb
      | succ m => exact ih m (by omega)

lemma findSpace_getD (l : Bytes) (h : findSpace l < l.length) :
    l.getD (findSpace l) 0 = 32 := by
  induction l with
  | nil => simp at h
  | cons b r ih =>
    by_cases hb : b = 32
    · unfold findSpace
      rw [if_pos hb]
      simpa using hb
    · unfold findSpace at h ⊢
      rw [if_neg hb] at h ⊢
      rw [List.getD_cons_succ]
      exact ih (by simpa using Nat.lt_of_succ_lt_succ h)

lemma count_take_findSpace (l : Bytes) :
    (l.take (findSpace l)).count 32 = 0 := by
  induction l with
  | nil => simp
  | cons b r ih =>
    unfold findSpace
    by_cases hb : b = 32
    · simp [hb]
    · rw [if_neg hb, List.take_succ_cons, List.count_cons]
      simp [ih, hb]

lemma getD_drop (q : Bytes) (a m : Nat) :
    (q.drop a).getD m 0 = q.getD (a + m) 0 := by
  by_cases h : a + m < q.length
  · have hm : m < (q.drop a).length := by
      rw [List.length_drop]
      omega
    rw [List.getD_eq_getElem _ _ hm, List.getD_eq_getElem _ _ h]
    simp
  · rw [List.getD_eq_default, List.getD_eq_default]
    · omega
    · rw [List.length_drop]
      omega

lemma le_memchrSpace (q : Bytes) (a : Nat) : a ≤ memchrSpace q a :=
  Nat.le_add_right a _

lemma memchrSpace_le_length (q : Bytes) {a : Nat} (h : a ≤ q.length) :
    memchrSpace q a ≤ q.length := by
  unfold memchrSpace
  have := findSpace_le_length (q.drop a)
  rw [List.length_drop] at this
  omega

lemma memchrSpace_not_space {q : Bytes} {a j : Nat} (h1 : a ≤ j)
    (h2 : j < memchrSpace q a) : q.getD j 0 ≠ 32 := by
  have hlt : j - a < findSpace (q.drop a) := by
    unfold memchrSpace at h2
    omega
  have := findSpace_take_ne (q.drop a) (j - a) hlt
  rw [getD_drop] at this
  have hj : a + (j - a) = j := by omega
  rwa [hj] at this

lemma memchrSpace_space {q : Bytes} {a : Nat} (h : memchrSpace q a < q.length) :
    q.getD (memchrSpace q a) 0 = 32 := by
  have hlt : findSpace (q.drop a) < (q.drop a).length := by
    rw [List.length_drop]
    unfold memchrSpace at h
    omega
  have := findSpace_getD (q.drop a) hlt
  rwa [getD_drop] at this

lemma memchrSpace_eq_of (q : Bytes) {a b : Nat} (hab : a ≤ b) (hb : b < q.length)
    (hsp : q.getD b 0 = 32) (hno : ∀ j, a ≤ j → j < b → q.getD j 0 ≠ 32) :
    memchrSpace q a = b := by
  rcases Nat.lt_trichotomy (memchrSpace q a) b with h | h | h
  · exact absurd (memchrSpace_space (Nat.lt_trans h hb))
      (hno _ (le_memchrSpace q a) h)
  · exact h
  · exact absurd hsp (memchrSpace_not_space hab h)

lemma memchrSpace_eq_length (q : Bytes) {a : Nat} (ha : a ≤ q.length)
    (hno : ∀ j, a ≤ j → j < q.length → q.getD j 0 ≠ 32) :
    memchrSpace q a = q.length := by
  rcases Nat.lt_or_ge (memchrSpace q a) q.length with h | h
  · exact absurd (memchrSpace_space h) (hno _ (le_memchrSpace q a) h)
  · exact Nat.le_antisymm (memchrSpace_le_length q ha) h

lemma count_substr_memchr (q : Bytes) (a : Nat) :
    (substr q a (memchrSpace q a)).count 32 = 0 := by
  unfold substr memchrSpace
  have h : a + findSpace (q.drop a) - a = findSpace (q.drop a) := by omega
  rw [h]
  exact count_take_findSpace (q.drop a)

/-! ## Lemmas about the spec-side position lists -/

lemma mem_spacePositions {q : Bytes} {j : Nat} :
    j ∈ spacePositions q ↔ j < q.length ∧ q.getD j 0 = 32 := by
  simp [spacePositions, List.mem_filter, List.mem_range]

lemma spacePositions_sorted (q : Bytes) :
    (spacePositions q).Pairwise (· < ·) := by
  have h : (List.range q.length).Pairwise (· < ·) := List.sorted_lt_range q.length
  exact h.filter _

lemma spacePositions_getD_lt {q : Bytes} {m n : Nat}
    (hmn : m < n) (hn : n < (spacePositions q).length) :
    (spacePositions q).getD m 0 < (spacePositions q).getD n 0 := by
  have hp := spacePositions_sorted q
  rw [List.pairwise_iff_getElem] at hp
  have hm : m < (spacePositions q).length := Nat.lt_trans hmn hn
  rw [List.getD_eq_getElem _ _ hm, List.getD_eq_getElem _ _ hn]
  exact hp m n hm hn hmn

lemma spacePositions_getD_space {q : Bytes} {m : Nat}
    (hm : m < (spacePositions q).length) :
    (spacePositions q).getD m 0 < q.length ∧
      q.getD ((spacePositions q).getD m 0) 0 = 32 := by
  have hmem : (spacePositions q).getD m 0 ∈ spacePositions q := by
    rw [List.getD_eq_getElem _ _ hm]
    exact List.getElem_mem _
  exact mem_spacePositions.mp hmem

lemma spacePositions_index_of_space {q : Bytes} {j : Nat}
    (hj : j < q.length) (hsp : q.getD j 0 = 32) :
    ∃ m, m < (spacePositions q).length ∧ (spacePositions q).getD m 0 = j := by
  have hmem : j ∈ spacePositions q := mem_spacePositions.mpr ⟨hj, hsp⟩
  rw [List.mem_iff_getElem] at hmem
  obtain ⟨m, hm, hval⟩ := hmem
  exact ⟨m, hm, by rw [List.getD_eq_getElem _ _ hm]; exact hval⟩

lemma length_startsOf (q : Bytes) : (startsOf q).length = numEnds q := by
  simp [startsOf, numEnds]

lemma length_endsOf (q : Bytes) : (endsOf q).length = numEnds q := by
  simp [endsOf, numEnds]

lemma startAt_zero (q : Bytes) : startAt q 0 = 0 := rfl

lemma startAt_succ {q : Bytes} {m : Nat} (hm : m < (spacePositions q).length) :
    startAt q (m + 1) = (spacePositions q).getD m 0 + 1 := by
  unfold startAt startsOf
  rw [List.getD_cons_succ]
  have hm2 : m < ((spacePositions q).map (· + 1)).length := by simpa using hm
  rw [List.getD_eq_getElem _ _ hm2, List.getElem_map, List.getD_eq_getElem _ _ hm]

lemma endAt_lt {q : Bytes} {i : Nat} (hi : i < (spacePositions q).length) :
    endAt q i = (spacePositions q).getD i 0 := by
  unfold endAt endsOf
  rw [List.getD_eq_getElem _ _ (by simpa using Nat.lt_add_right 1 hi),
    List.getElem_append_left hi, List.getD_eq_getElem _ _ hi]

lemma endAt_last (q : Bytes) : endAt q (spacePositions q).length = q.length := by
  unfold endAt endsOf
  rw [List.getD_eq_getElem _ _ (by simp)]
  rw [List.getElem_append_right (Nat.le_refl _)]
  simp

lemma startAt_le_length {q : Bytes} {i : Nat} (hi : i < numEnds q) :
    startAt q i ≤ q.length := by
  cases i with
  | zero => simp [startAt_zero]
  | succ m =>
    have hm : m < (spacePositions q).length := by
      unfold numEnds at hi
      omega
    rw [startAt_succ hm]
    exact (spacePositions_getD_space hm).1

lemma space_index_ge {q : Bytes} {i j : Nat} (hi : i < numEnds q)
    (h1 : startAt q i ≤ j) (h2 : j < q.length) (hsp : q.getD j 0 = 32) :
    ∃ m, i ≤ m ∧ m < (spacePositions q).length ∧
      (spacePositions q).getD m 0 = j := by
  obtain ⟨m, hm, hval⟩ := spacePositions_index_of_space h2 hsp
  refine ⟨m, ?_, hm, hval⟩
  by_contra hlt
  push_neg at hlt
  cases i with
  | zero => omega
  | succ n =>
    have hn : n < (spacePositions q).length := by
      unfold numEnds at hi
      omega
    rw [startAt_succ hn] at h1
    have hle : (spacePositions q).getD m 0 ≤ (spacePositions q).getD n 0 := by
      rcases Nat.lt_or_ge m n with h | h
      · exact Nat.le_of_lt (spacePositions_getD_lt h hn)
      · have : m = n := by omega
        rw [this]
    omega

lemma endAt_eq {q : Bytes} (i : Nat) (hi : i < numEnds q) :
    memchrSpace q (startAt q i) = endAt q i := by
  rcases Nat.lt_or_ge i (spacePositions q).length with hil | hig
  · rw [endAt_lt hil]
    apply memchrSpace_eq_of
    · cases i with
      | zero => simp [startAt_zero]
      | succ n =>
        have hn : n < (spacePositions q).length := Nat.lt_of_succ_lt hil
        rw [startAt_succ hn]
        exact spacePositions_getD_lt (Nat.lt_succ_self n) hil
    · exact (spacePositions_getD_space hil).1
    · exact (spacePositions_getD_space hil).2
    · intro j hj1 hj2 hjsp
      obtain ⟨m, him, hm, hval⟩ := space_index_ge hi hj1
        (Nat.lt_trans hj2 (spacePositions_getD_space hil).1) hjsp
      have : (spacePositions q).getD i 0 ≤ (spacePositions q).getD m 0 := by
        rcases Nat.lt_or_ge i m with h | h
        · exact Nat.le_of_lt (spacePositions_getD_lt h hm)
        · have : i = m := by omega
          rw [this]
      omega
  · have hieq : i = (spacePositions q).length := by
      unfold numEnds at hi
      omega
    subst hieq
    rw [endAt_last]
    apply memchrSpace_eq_length q (startAt_le_length hi)
    intro j hj1 hj2 hjsp
    obtain ⟨m, him, hm, _⟩ := space_index_ge hi hj1 hj2 hjsp
    omega

lemma startAt_le_endAt {q : Bytes} (i : Nat) (hi : i < numEnds q) :
    startAt q i ≤ endAt q i := by
  rw [← endAt_eq i hi]
  exact le_memchrSpace q _

lemma endAt_le_length {q : Bytes} (i : Nat) (hi : i < numEnds q) :
    endAt q i ≤ q.length := by
  rcases Nat.lt_or_ge i (spacePositions q).length with hil | hig
  · rw [endAt_lt hil]
    exact Nat.le_of_lt (spacePositions_getD_space hil).1
  · have hieq : i = (spacePositions q).length := by
      unfold numEnds at hi
      omega
    rw [hieq, endAt_last]

lemma endAt_lt_length {q : Bytes} {i : Nat} (hi : i < (spacePositions q).length) :
    endAt q i < q.length := by
  rw [endAt_lt hi]
  exact (spacePositions_getD_space hi).1

lemma startAt_succ_endAt {q : Bytes} {i : Nat}
    (hi : i < (spacePositions q).length) :
    startAt q (i + 1) = endAt q i + 1 := by
  rw [startAt_succ hi, endAt_lt hi]

lemma endAt_strict_mono {q : Bytes} {i j : Nat} (hij : i < j)
    (hj : j < numEnds q) : endAt q i < endAt q j := by
  have hsorted : (endsOf q).Pairwise (· < ·) := by
    unfold endsOf
    rw [List.pairwise_append]
    refine ⟨spacePositions_sorted q, List.pairwise_singleton _ _, ?_⟩
    intro a ha b hb
    rw [List.mem_singleton] at hb
    subst hb
    exact (mem_spacePositions.mp ha).1
  rw [List.pairwise_iff_getElem] at hsorted
  have hj2 : j < (endsOf q).length := by rw [length_endsOf]; exact hj
  have hi2 : i < (endsOf q).length := Nat.lt_trans (by omega) hj2
  unfold endAt
  rw [List.getD_eq_getElem _ _ hi2, List.getD_eq_getElem _ _ hj2]
  exact hsorted i j hi2 hj2 hij

lemma endAt_mono {q : Bytes} {i j : Nat} (hij : i ≤ j) (hj : j < numEnds q) :
    endAt q i ≤ endAt q j := by
  rcases Nat.lt_or_ge i j with h | h
  · exact Nat.le_of_lt (endAt_strict_mono h hj)
  · have : i = j := by omega
    rw [this]

lemma endAt_eq_length_iff {q : Bytes} {i : Nat} (hi : i < numEnds q) :
    endAt q i = q.length ↔ i = (spacePositions q).length := by
  constructor
  · intro h
    rcases Nat.lt_or_ge i (spacePositions q).length with hil | hig
    · exact absurd h (Nat.ne_of_lt (endAt_lt_length hil))
    · unfold numEnds at hi
      omega
  · intro h
    rw [h, endAt_last]

/-! ## The pending-start deque -/

lemma pendingAt_length {q : Bytes} {maxN i : Nat} (hi : i < numEnds q) :
    (pendingAt q maxN i).length = min maxN (i + 1) := by
  unfold pendingAt
  rw [List.length_drop, List.length_take, length_startsOf]
  omega

lemma pendingAt_le_maxN {q : Bytes} {maxN i : Nat} (hi : i < numEnds q) :
    (pendingAt q maxN i).length ≤ maxN := by
  rw [pendingAt_length hi]
  omega

lemma pendingAt_zero {q : Bytes} {maxN : Nat} (hm : 1 ≤ maxN) :
    pendingAt q maxN 0 = [0] := by
  unfold pendingAt startsOf
  have h : 0 + 1 - maxN = 0 := by omega
  rw [h]
  simp

lemma mem_pendingAt {q : Bytes} {maxN i t : Nat} (hi : i < numEnds q)
    (ht : t ∈ pendingAt q maxN i) :
    ∃ j, i + 1 - maxN ≤ j ∧ j ≤ i ∧ t = startAt q j := by
  unfold pendingAt at ht
  rw [List.mem_iff_getElem] at ht
  obtain ⟨m, hm, hval⟩ := ht
  rw [List.length_drop, List.length_take, length_startsOf] at hm
  simp only [List.getElem_drop, List.getElem_take] at hval
  refine ⟨i + 1 - maxN + m, Nat.le_add_right _ _, by omega, ?_⟩
  unfold startAt
  rw [List.getD_eq_getElem _ _ (by rw [length_startsOf]; omega)]
  exact hval.symm

lemma pendingAt_step {q : Bytes} {maxN i : Nat} (hm : 1 ≤ maxN)
    (hi : i + 1 < numEnds q) :
    (if (pendingAt q maxN i).length = maxN then (pendingAt q maxN i).tail
      else pendingAt q maxN i) ++ [startAt q (i + 1)] =
      pendingAt q maxN (i + 1) := by
  have hi0 : i < numEnds q := Nat.lt_of_succ_lt hi
  have hlen : (startsOf q).length = numEnds q := length_startsOf q
  have htake : (startsOf q).take (i + 2) =
      (startsOf q).take (i + 1) ++ [startAt q (i + 1)] := by
    rw [List.take_succ]
    congr 1
    rw [List.getElem?_eq_getElem (by omega)]
    rw [Option.toList_some]
    unfold startAt
    rw [List.getD_eq_getElem _ _ (by omega)]
  have hlentake : ((startsOf q).take (i + 1)).length = i + 1 := by
    rw [List.length_take]
    omega
  rw [pendingAt_length hi0]
  by_cases hcase : maxN ≤ i + 1
  · rw [if_pos (by omega)]
    unfold pendingAt
    rw [htake, List.drop_append_of_le_length (by omega), List.tail_drop]
    have h2 : i + 1 - maxN + 1 = i + 2 - maxN := by omega
    rw [h2]
  · rw [if_neg (by omega)]
    unfold pendingAt
    rw [htake, List.drop_append_of_le_length (by omega)]
    have h1 : i + 1 - maxN = 0 := by omega
    have h2 : i + 2 - maxN = 0 := by omega
    rw [h1, h2]

/-! ## The sweep refines the spec-side description -/

lemma specMatches_eq_flatMap (dict : List Bytes) (q : Bytes) (maxN : Nat) :
    specMatches dict q maxN =
      (List.range (numEnds q)).flatMap (emitAt dict q maxN) := by
  unfold specMatches specTestedSpans emitAt
  rw [List.filterMap_flatMap]
  congr 1
  funext i
  rw [List.filterMap_map]
  rfl

lemma findLoop_eq (dict : List Bytes) (q : Bytes) (maxN : Nat) (hm : 1 ≤ maxN) :
    ∀ fuel i, i < numEnds q → q.length + 1 - startAt q i ≤ fuel →
      findLoop dict q maxN fuel (startAt q i) (pendingAt q maxN i) =
        (List.range' i (numEnds q - i)).flatMap (emitAt dict q maxN) := by
  intro fuel
  induction fuel with
  | zero =>
    intro i hi hf
    have := startAt_le_length hi
    omega
  | succ fuel ih =>
    intro i hi hf
    have hA : memchrSpace q (startAt q i) = endAt q i := endAt_eq i hi
    simp only [findLoop, hA]
    by_cases hend : endAt q i = q.length
    · rw [if_pos hend]
      have hieq : i = (spacePositions q).length := (endAt_eq_length_iff hi).mp hend
      have hnum : numEnds q - i = 1 := by
        unfold numEnds
        omega
      rw [hnum, List.range'_succ]
      simp only [List.range'_zero, List.flatMap_cons, List.flatMap_nil,
        List.append_nil]
      rfl
    · rw [if_neg hend]
      have hil : i < (spacePositions q).length := by
        rcases Nat.lt_or_ge i (spacePositions q).length with h | h
        · exact h
        · have : i = (spacePositions q).length := by
            unfold numEnds at hi
            omega
          exact absurd ((endAt_eq_length_iff hi).mpr this) hend
      have hi1 : i + 1 < numEnds q := by
        unfold numEnds
        omega
      have hstep : startAt q (i + 1) = endAt q i + 1 := startAt_succ_endAt hil
      have hdeq := pendingAt_step hm hi1
      rw [hstep] at hdeq
      rw [hdeq]
      have hrec := ih (i + 1) hi1 (by
        have h1 : startAt q i ≤ endAt q i := startAt_le_endAt i hi
        rw [hstep]
        omega)
      rw [hstep] at hrec
      rw [hrec]
      have hnum : numEnds q - i = (numEnds q - (i + 1)) + 1 := by omega
      rw [hnum, List.range'_succ, List.flatMap_cons]
      rfl

lemma findAllMatches_eq_spec (dict : List Bytes) (q : Bytes) {maxN : Nat}
    (hm : 1 ≤ maxN) :
    findAllMatches dict q maxN = specMatches dict q maxN := by
  unfold findAllMatches
  have h0 := findLoop_eq dict q maxN hm (q.length + 1) 0 (by unfold numEnds; omega)
    (by rw [startAt_zero]; omega)
  rw [startAt_zero, pendingAt_zero hm] at h0
  rw [h0, specMatches_eq_flatMap, List.range_eq_range']
  simp

/-! ## Counting the space bytes inside a tested span -/

lemma substr_append (q : Bytes) {a b c : Nat} (hab : a ≤ b) (hbc : b ≤ c) :
    substr q a c = substr q a b ++ substr q b c := by
  unfold substr
  have h : c - a = (b - a) + (c - b) := by omega
  rw [h, List.take_add, List.drop_drop]
  have h2 : a + (b - a) = b := by omega
  rw [h2]

lemma count_substr_token {q : Bytes} (i : Nat) (hi : i < numEnds q) :
    (substr q (startAt q i) (endAt q i)).count 32 = 0 := by
  rw [← endAt_eq i hi]
  exact count_substr_memchr q _

lemma count_substr_space {q : Bytes} {e : Nat} (he : e < q.length)
    (hsp : q.getD e 0 = 32) : (substr q e (e + 1)).count 32 = 1 := by
  unfold substr
  have h : e + 1 - e = 1 := by omega
  rw [h, List.drop_eq_getElem_cons he, List.take_succ_cons, List.take_zero]
  have hg : q[e] = 32 := by
    rw [← List.getD_eq_getElem q 0 he]
    exact hsp
  simp [hg]

lemma count_substr_gap {q : Bytes} :
    ∀ g i j, i < numEnds q → j + g = i →
      (substr q (startAt q j) (endAt q i)).count 32 = g := by
  intro g
  induction g with
  | zero =>
    intro i j hi hji
    have hj : j = i := by omega
    subst hj
    exact count_substr_token j hi
  | succ g ihg =>
    intro i j hi hji
    have hj1 : j < (spacePositions q).length := by
      unfold numEnds at hi
      omega
    have hjn : j < numEnds q := by
      unfold numEnds
      omega
    have hj1n : j + 1 < numEnds q := by
      unfold numEnds at hi ⊢
      omega
    have h1 : startAt q j ≤ endAt q j := startAt_le_endAt j hjn
    have h2 : startAt q (j + 1) = endAt q j + 1 := startAt_succ_endAt hj1
    have h3 : startAt q (j + 1) ≤ endAt q i := by
      calc startAt q (j + 1) ≤ endAt q (j + 1) := startAt_le_endAt (j + 1) hj1n
      _ ≤ endAt q i := endAt_mono (by omega) hi
    have hsplit1 : substr q (startAt q j) (endAt q i) =
        substr q (startAt q j) (startAt q (j + 1)) ++
          substr q (startAt q (j + 1)) (endAt q i) :=
      substr_append q (by omega) h3
    have hsplit2 : substr q (startAt q j) (startAt q (j + 1)) =
        substr q (startAt q j) (endAt q j) ++
          substr q (endAt q j) (endAt q j + 1) := by
      rw [h2]
      exact substr_append q h1 (by omega)
    rw [hsplit1, hsplit2, List.count_append, List.count_append,
      count_substr_token j hjn,
      count_substr_space (endAt_lt_length hj1)
        (by rw [endAt_lt hj1]; exact (spacePositions_getD_space hj1).2),
      ihg i (j + 1) hi (by omega)]
    omega

lemma count_le_of_mem_spec {dict : List Bytes} {q : Bytes} {maxN : Nat}
    (hm : 1 ≤ maxN) {r : Bytes} (hr : r ∈ specMatches dict q maxN) :
    r.count 32 ≤ maxN - 1 := by
  rw [specMatches_eq_flatMap, List.mem_flatMap] at hr
  obtain ⟨i, hirange, hre⟩ := hr
  rw [List.mem_range] at hirange
  unfold emitAt at hre
  rw [List.mem_filterMap] at hre
  obtain ⟨t, ht, hopt⟩ := hre
  by_cases hc : contains dict (substr q t (endAt q i)) = true
  · rw [if_pos hc, Option.some_inj] at hopt
    obtain ⟨j, hj1, hj2, rfl⟩ := mem_pendingAt hirange ht
    rw [← hopt, count_substr_gap (i - j) i j hirange (by omega)]
    omega
  · rw [if_neg hc] at hopt
    exact absurd hopt (by simp)

/-! ## Claim theorems: the sweep -/

/-- C2: end positions are processed left to right; at each fixed end
position every pending start is tested oldest-first, and hits are appended
to the result in exactly that test order (`specMatches` spells out that
order); corpus "cat\ndog", query "cat sat on a dog", maxNgramSize 1 yields
["cat", "dog"] in left-to-right order of occurrence. -/
theorem C2_emission_order :
    (∀ (dict : List Bytes) (q : Bytes) (maxN : Nat), 1 ≤ maxN →
      findAllMatches dict q maxN = specMatches dict q maxN) ∧
    findAllMatches (buildSet (bs "cat\ndog")) (bs "cat sat on a dog") 1 =
      [bs "cat", bs "dog"] :=
  ⟨fun dict q maxN hm => findAllMatches_eq_spec dict q hm, by decide⟩

/-- C2 witness: the refinement instantiated on the "new york" example. -/
theorem C2_emission_order_witness :
    1 ≤ 2 ∧
      findAllMatches (buildSet (bs "new york")) (bs "i love new york city") 2 =
        specMatches (buildSet (bs "new york")) (bs "i love new york city") 2 :=
  ⟨by decide, C2_emission_order.1 _ _ 2 (by decide)⟩

/-- C3: the pending-start deque never holds more than maxNgramSize start
offsets at any membership test, and every returned span contains at most
maxNgramSize - 1 space bytes (hence covers at most maxNgramSize tokens);
the "new york" examples. -/
theorem C3_ngram_bound :
    (∀ (dict : List Bytes) (q : Bytes) (maxN : Nat), 1 ≤ maxN →
      (∀ i, i < numEnds q → (pendingAt q maxN i).length ≤ maxN) ∧
      ∀ r ∈ findAllMatches dict q maxN, r.count 32 ≤ maxN - 1) ∧
    bs "new york" ∈
      findAllMatches (buildSet (bs "new york")) (bs "i love new york city") 2 ∧
    (∀ r ∈ findAllMatches (buildSet (bs "new york"))
        (bs "i love new york city") 2, r.count 32 ≤ 1) ∧
    findAllMatches (buildSet (bs "new york")) (bs "i love new york city") 1
      = [] := by
  refine ⟨?_, by decide, by decide, by decide⟩
  intro dict q maxN hm
  refine ⟨fun i hi => pendingAt_le_maxN hi, fun r hr => ?_⟩
  rw [findAllMatches_eq_spec dict q hm] at hr
  exact count_le_of_mem_spec hm hr

/-- C3 witness: the space-count bound instantiated on a concrete match. -/
theorem C3_ngram_bound_witness :
    1 ≤ 2 ∧ (bs "a b").count 32 ≤ 2 - 1 :=
  ⟨by decide,
    (C3_ngram_bound.1 (buildSet (bs "a b")) (bs "a b") 2 (by decide)).2
      (bs "a b") (by decide)⟩

/-! ## The whole-query span and the empty query -/

lemma mem_findAllMatches_self {dict : List Bytes} {Q : Bytes} (hQ : Q ∈ dict) :
    Q ∈ findAllMatches dict Q (numEnds Q) := by
  have hm : 1 ≤ numEnds Q := by
    unfold numEnds
    omega
  rw [findAllMatches_eq_spec dict Q hm, specMatches_eq_flatMap, List.mem_flatMap]
  refine ⟨numEnds Q - 1, by rw [List.mem_range]; omega, ?_⟩
  unfold emitAt
  rw [List.mem_filterMap]
  have hend : endAt Q (numEnds Q - 1) = Q.length := by
    have h : numEnds Q - 1 = (spacePositions Q).length := by
      unfold numEnds
      omega
    rw [h, endAt_last]
  have hsub : substr Q 0 (endAt Q (numEnds Q - 1)) = Q := by
    rw [hend]
    unfold substr
    simp
  refine ⟨0, ?_, ?_⟩
  · unfold pendingAt
    have h1 : numEnds Q - 1 + 1 = numEnds Q := by omega
    rw [h1, List.take_of_length_le (by rw [length_startsOf]),
      Nat.sub_self, List.drop_zero]
    exact List.mem_cons_self 0 _
  · rw [hsub, if_pos (contains_iff.mpr hQ)]

lemma findAllMatches_nil (dict : List Bytes) (maxN : Nat) :
    findAllMatches dict [] maxN = if contains dict [] then [[]] else [] := by
  show findLoop dict [] maxN 1 0 [0] = _
  by_cases hc : contains dict [] = true
  · simp [findLoop, memchrSpace, findSpace, substr, hc]
  · rw [Bool.not_eq_true] at hc
    simp [findLoop, memchrSpace, findSpace, substr, hc]

/-! ## Claim theorems: consistency, coercion, conversion failure, empty query -/

/-- C5: for every query Q whose whole byte content is verbatim one
dictionary entry, `contains` returns true and `findAllMatches` with
maxNgramSize = token count of Q (= `numEnds Q`) includes the span covering
the entire query. -/
theorem C5_contains_matches_consistency :
    (∀ (dict : List Bytes) (Q : Bytes), Q ∈ dict →
      contains dict Q = true ∧ Q ∈ findAllMatches dict Q (numEnds Q)) ∧
    bs "new york" ∈
      findAllMatches (buildSet (bs "new york")) (bs "new york") (numEnds (bs "new york")) :=
  ⟨fun dict Q hQ => ⟨contains_iff.mpr hQ, mem_findAllMatches_self hQ⟩, by decide⟩

/-- C5 witness: the consistency instantiated on corpus "cat\ndog" and
query "cat". -/
theorem C5_contains_matches_consistency_witness :
    bs "cat" ∈ buildSet (bs "cat\ndog") ∧
      contains (buildSet (bs "cat\ndog")) (bs "cat") = true ∧
      bs "cat" ∈ findAllMatches (buildSet (bs "cat\ndog")) (bs "cat")
        (numEnds (bs "cat")) :=
  ⟨by decide, C5_contains_matches_consistency.1 _ _ (by decide)⟩

/-- C6: the external FindAllMatches with maxNgramSize = 0 returns exactly
the same result sequence as with maxNgramSize = 1 (the zero value is
coerced to 1 before the sweep). -/
theorem C6_zero_coercion :
    ∀ (dict : List Bytes) (arg : Option Bytes),
      FindAllMatchesExt dict arg 0 = FindAllMatchesExt dict arg 1 :=
  fun _ _ => rfl

/-- C6 witness: the coercion instantiated on a concrete dictionary and
query. -/
theorem C6_zero_coercion_witness :
    FindAllMatchesExt (buildSet (bs "cat\ndog"))
        (some (bs "cat sat on a dog")) 0 =
      FindAllMatchesExt (buildSet (bs "cat\ndog"))
        (some (bs "cat sat on a dog")) 1 :=
  C6_zero_coercion (buildSet (bs "cat\ndog")) (some (bs "cat sat on a dog"))

/-- C7 counterexample: for the dictionary built from corpus "\n" (which
contains the empty-string entry), a failed UTF-8 conversion makes the
external Contains return true and the external FindAllMatches return the
one-element sequence [""], not false / an empty sequence as the claim
states for every dictionary. -/
theorem C7_conversion_failure_counterexample :
    ContainsExt (buildSet (bs "\n")) none = true ∧
      FindAllMatchesExt (buildSet (bs "\n")) none 1 = [bs ""] := by
  constructor
  · decide
  · decide

/-- C7 amended: a text argument that fails UTF-8 conversion is treated as
an empty effective input rather than an error — the result is exactly that
of querying the empty byte sequence — and for every dictionary without an
empty-string entry both operations yield an empty result (false / empty
sequence), indistinguishable from "no matches found". -/
theorem C7_conversion_failure_amended :
    ∀ (dict : List Bytes) (maxN : Nat),
      ContainsExt dict none = ContainsExt dict (some []) ∧
      FindAllMatchesExt dict none maxN = FindAllMatchesExt dict (some []) maxN ∧
      ([] ∉ dict →
        ContainsExt dict none = false ∧
        FindAllMatchesExt dict none maxN = []) := by
  intro dict maxN
  refine ⟨rfl, rfl, fun hne => ⟨contains_eq_false hne, ?_⟩⟩
  show findAllMatches dict [] _ = []
  rw [findAllMatches_nil, contains_eq_false hne]
  simp

/-- C7 witness: the amended behaviour instantiated on the dictionary built
from corpus "a", which has no empty-string entry. -/
theorem C7_conversion_failure_witness :
    ([] : Bytes) ∉ buildSet (bs "a") ∧
      ContainsExt (buildSet (bs "a")) none = false ∧
      FindAllMatchesExt (buildSet (bs "a")) none 3 = [] :=
  ⟨by decide,
    ((C7_conversion_failure_amended (buildSet (bs "a")) 3).2.2 (by decide)).1,
    ((C7_conversion_failure_amended (buildSet (bs "a")) 3).2.2 (by decide)).2⟩

/-- C8: on the empty query, the sweep performs exactly one membership test
of the empty span (the spec-side tested-span list is [(0, 0)]), and
returns [""] when the empty string is a dictionary entry and [] otherwise;
`contains` on the empty input is true exactly when "" is an entry. -/
theorem C8_empty_query :
    ∀ (dict : List Bytes) (maxN : Nat),
      findAllMatches dict [] maxN = (if [] ∈ dict then [[]] else []) ∧
      (1 ≤ maxN → specTestedSpans [] maxN = [(0, 0)]) ∧
      (contains dict [] = true ↔ [] ∈ dict) := by
  intro dict maxN
  refine ⟨?_, fun hm => ?_, contains_iff⟩
  · rw [findAllMatches_nil]
    by_cases h : [] ∈ dict
    · rw [if_pos (contains_iff.mpr h), if_pos h]
    · rw [contains_eq_false h, if_neg h]
      simp
  · have h0 : pendingAt [] maxN 0 = [0] := pendingAt_zero hm
    simp [specTestedSpans, numEnds, spacePositions, h0, endAt, endsOf,
      List.range_succ]

/-- C8 witness: the empty-query behaviour instantiated on the dictionary
built from corpus "\n". -/
theorem C8_empty_query_witness :
    (1 ≤ 2 ∧ specTestedSpans [] 2 = [(0, 0)]) ∧
      findAllMatches (buildSet (bs "\n")) [] 2 =
        (if ([] : Bytes) ∈ buildSet (bs "\n") then [[]] else []) :=
  ⟨⟨by decide, (C8_empty_query (buildSet (bs "\n")) 2).2.1 (by decide)⟩,
    (C8_empty_query (buildSet (bs "\n")) 2).1⟩

/-- C9: neither query method mutates the dictionary state: the receiver
after a call equals the receiver before it (the embedded method bodies
write no field), so repeated calls with identical arguments return
identical results. -/
theorem C9_no_mutation :
    ∀ (corpus q : Bytes) (maxN : Nat),
      (containsM (mkUBS corpus) q).2 = mkUBS corpus ∧
      (findAllMatchesM (mkUBS corpus) q maxN).2 = mkUBS corpus ∧
      (containsM ((containsM (mkUBS corpus) q).2) q).1 =
        (containsM (mkUBS corpus) q).1 ∧
      (findAllMatchesM ((findAllMatchesM (mkUBS corpus) q maxN).2) q maxN).1 =
        (findAllMatchesM (mkUBS corpus) q maxN).1 :=
  fun _ _ _ => ⟨rfl, rfl, rfl, rfl⟩

/-- C9 witness: instantiated on a concrete corpus and query. -/
theorem C9_no_mutation_witness :
    (containsM (mkUBS (bs "cat\ndog")) (bs "cat")).2 = mkUBS (bs "cat\ndog") ∧
      (findAllMatchesM (mkUBS (bs "cat\ndog")) (bs "cat") 1).2 =
        mkUBS (bs "cat\ndog") ∧
      (containsM ((containsM (mkUBS (bs "cat\ndog")) (bs "cat")).2) (bs "cat")).1 =
        (containsM (mkUBS (bs "cat\ndog")) (bs "cat")).1 ∧
      (findAllMatchesM
          ((findAllMatchesM (mkUBS (bs "cat\ndog")) (bs "cat") 1).2) (bs "cat") 1).1 =
        (findAllMatchesM (mkUBS (bs "cat\ndog")) (bs "cat") 1).1 :=
  C9_no_mutation (bs "cat\ndog") (bs "cat") 1

/-- C10: the corpus buffer is allocated with `new char[len]` (line 87) but
deallocated with `free` (line 109); the deallocation does not match the
allocation, contradicting the claim that the buffer is freed correctly
matching its allocation. -/
theorem C10_alloc_free_mismatch :
    dtorFree ≠ matchingFree ctorAlloc := by
  decide

end UBS
